import Mathlib

/-!
# github-actions-exporter: organization runner poller and enterprise API URL

A shallow embedding of

* `pkg/metrics/get_runners_organization_from_github.go`
  (`getAllOrgRunners`, `runnerLabelsToString`, `runnerStatusToCode`,
  `getRunnersOrganizationFromGithub`, `runnersOrganizationGauge`), and
* `pkg/metrics/metrics.go` (`getEnterpriseApiUrl`).

Conventions.

* Go pointer fields (`*string`, `*int64`, `*bool`) and pointers to records are
  `Option` values; `none` is the nil pointer.
* The remote API and the clock are explicit: a request is answered by a server
  function on an explicit server state, and an instant is an `Int` of nanoseconds.
  A `time.Duration` is an `int64`: `time.Until` is pinned to its range and the
  product with `time.Second` wraps around.
* Loops that need not terminate in Go (`for { ... }`) take a fuel argument and
  return `none` when the fuel runs out.
* `log.Printf` calls write to the process log only and are not modelled.
* The gauge value is a `float64` in Go; the only values ever written are
  `0`, `1`, `2` and `-1`, which are modelled as `Int`.
-/

namespace GithubActionsExporter

/-! ## Records returned by the API -/

/-- Modelled from the spec: the go-github record `RunnerLabels` is declared outside the
sources; only its pointer-valued `Name` field is read here (`LabelType` is the Go field
`Type`, a reserved word here). -/
structure RunnerLabels where
  ID : Option Int
  Name : Option String
  LabelType : Option String
deriving DecidableEq, Repr

/-- Modelled from the spec: the go-github record `Runner` ("identifier, display name,
operating system, busy/online flags or lifecycle status, and an arbitrary label set") is
declared outside the sources; every scalar field is a pointer and `Labels` is a slice of
pointers. -/
structure Runner where
  ID : Option Int
  Name : Option String
  OS : Option String
  Status : Option String
  Busy : Option Bool
  Labels : List (Option RunnerLabels)
deriving DecidableEq, Repr

/-- Modelled from the spec: the nil-safe getter `(*RunnerLabels).GetName` of go-github, which
yields the empty string for a nil receiver or a nil field. -/
def RunnerLabels.GetName : Option RunnerLabels → String
  | some l => l.Name.getD ""
  | none => ""

/-- Modelled from the spec: the nil-safe getter `(*Runner).GetStatus` of go-github ("the empty
string of an absent status"). -/
def Runner.GetStatus : Option Runner → String
  | some r => r.Status.getD ""
  | none => ""

/-- Modelled from the spec: the nil-safe getter `(*Runner).GetBusy` of go-github (false when
the flag is absent). -/
def Runner.GetBusy : Option Runner → Bool
  | some r => r.Busy.getD false
  | none => false

/-- Modelled from the spec: the nil-safe getter `(*Runner).GetID` of go-github (zero when the
identifier is absent). -/
def Runner.GetID : Option Runner → Int
  | some r => r.ID.getD 0
  | none => 0

/-! ## `runnerStatusToCode` and `runnerLabelsToString` -/

/-- The function `runnerStatusToCode`: `0` offline, `1` idle, `2` active, `-1` unknown. -/
def runnerStatusToCode (runner : Option Runner) : Int :=
  let s := Runner.GetStatus runner
  if s = "offline" then
    0
  else if s = "online" then
    if Runner.GetBusy runner then 2 else 1
  else
    -1

/-- The function `runnerLabelsToString` on a non-nil runner: the label names joined by a
comma, in the given order. -/
def runnerLabelsToString (runner : Runner) : String :=
  ",".intercalate (runner.Labels.map RunnerLabels.GetName)

/-! ## The remote API and `getAllOrgRunners` -/

/-- The fields of `github.ListOptions` that the fetcher sets. -/
structure ListOptions where
  Page : Int
  PerPage : Int
deriving DecidableEq, Repr

/-- One call `client.Actions.ListOrganizationRunners(ctx, orga, opt)`. -/
structure Request where
  orga : String
  opt : ListOptions
deriving DecidableEq, Repr

/-- The three shapes of the triple `(resp, rr, err)` that the fetcher distinguishes: an error
that is a `*github.RateLimitError` carrying `Rate.Reset`, any other non-nil error, and success
with `resp.Runners` and `rr.NextPage`. -/
inductive ApiResult where
  | rateLimited (reset : Int)
  | failed (msg : String)
  | ok (runners : List (Option Runner)) (NextPage : Int)
deriving DecidableEq, Repr

/-- An answered call: the time the round trip took and what came back. -/
structure ApiCall where
  took : Nat
  result : ApiResult
deriving DecidableEq, Repr

/-- The remote side: a transition function on a server state. `none` means that the
environment offers no answer to this request. -/
abbrev Server (σ : Type) := σ → Request → Option (ApiCall × σ)

/-- What `getAllOrgRunners` does to the outside world. -/
inductive ApiEvent where
  | request (r : Request)
  | sleep (d : Int)
deriving DecidableEq, Repr

/-- The value returned by `getAllOrgRunners`, together with the world it leaves behind. -/
structure Fetched (σ : Type) where
  runners : List (Option Runner)
  srv : σ
  now : Int
  trace : List ApiEvent
deriving DecidableEq, Repr

/-- The largest `time.Duration`, `1<<63 - 1` nanoseconds. -/
def maxDuration : Int := 9223372036854775807

/-- The smallest `time.Duration`, `-1 << 63` nanoseconds. -/
def minDuration : Int := -9223372036854775808

/-- The call `time.Until(t)` read at clock `now`: the difference `t - now` as an `int64`
`Duration`, which `Time.Sub` pins to the largest or smallest `Duration` when the difference
does not fit. -/
def timeUntil (t now : Int) : Int :=
  if maxDuration < t - now then maxDuration
  else if t - now < minDuration then minDuration
  else t - now

/-- The `for { ... }` loop of `getAllOrgRunners`. `opt` and `runners` are the two local
variables; `now` is the clock and `trace` the events so far. `time.Sleep` of a non-positive
duration returns at once. -/
def getAllOrgRunnersLoop {σ : Type} (server : Server σ) (orga : String) :
    Nat → σ → Int → ListOptions → List (Option Runner) → List ApiEvent → Option (Fetched σ)
  | 0, _, _, _, _, _ => none
  | fuel + 1, srv, now, opt, runners, trace =>
    match server srv ⟨orga, opt⟩ with
    | none => none
    | some (call, srv') =>
      let now' := now + call.took
      let trace' := trace ++ [ApiEvent.request ⟨orga, opt⟩]
      match call.result with
      | .rateLimited reset =>
        let d := timeUntil reset now'
        getAllOrgRunnersLoop server orga fuel srv' (now' + max d 0) opt runners
          (trace' ++ [ApiEvent.sleep d])
      | .failed _ => some ⟨runners, srv', now', trace'⟩
      | .ok rs next =>
        let runners' := runners ++ rs
        if next = 0 then
          some ⟨runners', srv', now', trace'⟩
        else
          getAllOrgRunnersLoop server orga fuel srv' now' { opt with Page := next } runners' trace'

/-- The function `getAllOrgRunners`: start from no runners and `ListOptions{PerPage: 200}`. -/
def getAllOrgRunners {σ : Type} (server : Server σ) (fuel : Nat) (orga : String) (srv : σ)
    (now : Int) : Option (Fetched σ) :=
  getAllOrgRunnersLoop server orga fuel srv now { Page := 0, PerPage := 200 } [] []

/-- A server that plays back a fixed list of answers, whatever is asked. -/
def scripted : Server (List ApiCall)
  | [], _ => none
  | c :: rest, _ => some (c, rest)

/-- The page a cursor designates: the first page when the cursor is unset. -/
def pageNumber (c : Int) : Nat :=
  if c ≤ 0 then 1 else c.toNat

/-- A server that holds the record list `L` and serves it in consecutive pages of `size`
records: page `p` (the first page when the cursor is unset) holds the records
`(p-1)*size ..< p*size` and announces page `p+1` exactly when records remain after it. -/
def pagedServer (L : List (Option Runner)) (size : Nat) : Server Unit :=
  fun _ req =>
    let p := pageNumber req.opt.Page
    let recs := (L.drop ((p - 1) * size)).take size
    let next : Int := if p * size < L.length then ((p + 1 : Nat) : Int) else 0
    some (⟨0, .ok recs next⟩, ())

/-- The waits handed to `time.Sleep` when the calls in `rls` (round-trip time, reported reset
instant) are all rate limited, starting at clock `now`: each is `time.Until` of the reset
instant at the clock of that moment. -/
def resetWaits : Int → List (Nat × Int) → List Int
  | _, [] => []
  | now, (took, reset) :: rest =>
    timeUntil reset (now + took) ::
      resetWaits (now + took + max (timeUntil reset (now + took)) 0) rest

/-- The waits until the reported reset instants themselves, without the bounds of a
`Duration`: each is the reset instant minus the clock at that moment, the clock moving on by
the round trips and by these waits. -/
def exactWaits : Int → List (Nat × Int) → List Int
  | _, [] => []
  | now, (took, reset) :: rest =>
    (reset - (now + took)) :: exactWaits (now + took + max (reset - (now + took)) 0) rest

/-- An answered call that succeeds: round-trip time, records, announced next page. -/
def okCall (pg : Nat × List (Option Runner) × Int) : ApiCall :=
  ⟨pg.1, .ok pg.2.1 pg.2.2⟩

/-- An answered call that is rate limited: round-trip time, reported reset instant. -/
def rateLimitedCall (rl : Nat × Int) : ApiCall :=
  ⟨rl.1, .rateLimited rl.2⟩

/-- The request for page cursor `c` of organization `orga` with the fixed page size. -/
def pageRequest (orga : String) (perPage : Int) (c : Int) : ApiEvent :=
  .request ⟨orga, ⟨c, perPage⟩⟩

/-- The cursor in force after pages announcing `nexts` were read, starting from `c`. -/
def lastCursor : Int → List Int → Int
  | c, [] => c
  | _, n :: rest => lastCursor n rest

/-- The cursors of the requests that read pages announcing `nexts`, starting from `c`: the
first request carries `c`, each later one the page announced just before. -/
def cursors : Int → List Int → List Int
  | _, [] => []
  | c, n :: rest => c :: cursors n rest

/-- The total round-trip time of a list of calls. -/
def tookSum {α : Type} : List (Nat × α) → Int
  | [] => 0
  | x :: rest => (x.1 : Int) + tookSum rest

/-- The clock after the rate-limited calls `rls` and their sleeps, starting at `now`. -/
def clockAfterWaits : Int → List (Nat × Int) → Int
  | now, [] => now
  | now, (took, reset) :: rest =>
    clockAfterWaits (now + took + max (timeUntil reset (now + took)) 0) rest

/-- The runner `r1` of the scenario: id 1, linux, online, not busy. -/
def runnerR1 : Runner :=
  { ID := some 1, Name := some "r1", OS := some "linux", Status := some "online",
    Busy := some false, Labels := [] }

/-- The runner `r2` of the scenario: id 2, linux, offline, busy flag absent. -/
def runnerR2 : Runner :=
  { ID := some 2, Name := some "r2", OS := some "linux", Status := some "offline",
    Busy := none, Labels := [] }

/-- The runner `r1` seen again later, now offline. -/
def runnerR1Offline : Runner :=
  { runnerR1 with Status := some "offline" }

/-- A runner record without the `os` field. -/
def runnerNoOS : Runner :=
  { ID := some 3, Name := some "r3", OS := none, Status := some "online",
    Busy := some false, Labels := [] }

/-! ## The gauge -/

/-- Modelled from the spec: the Prometheus `GaugeVec` is declared outside the sources. It is
"a label-keyed numeric mapping": `set` upserts a value for a tuple and `resetAll` removes every
previously set label tuple. -/
structure GaugeVec where
  Name : String
  Help : String
  labelNames : List String
  series : List (List String × Int)
deriving DecidableEq, Repr

/-- The variable `runnersOrganizationGauge`, created with no series. -/
def runnersOrganizationGauge : GaugeVec :=
  { Name := "github_tr_runner_organization_current_status"
    Help := "runner status: 0: offline; 1: idle; 2: active; -1: unknown"
    labelNames := ["organization", "os", "name", "id", "all_labels"]
    series := [] }

/-- Replace the value stored under `k`, or add `k` at the end. -/
def upsert (k : List String) (v : Int) : List (List String × Int) → List (List String × Int)
  | [] => [(k, v)]
  | (k', v') :: rest => if k' = k then (k, v) :: rest else (k', v') :: upsert k v rest

/-- Modelled from the spec: `WithLabelValues(lvs...).Set(v)` of the Prometheus library; it
fails (`none`) when the number of values differs from the number of label names. -/
def GaugeVec.Set (g : GaugeVec) (lvs : List String) (v : Int) : Option GaugeVec :=
  if lvs.length = g.labelNames.length then
    some { g with series := upsert lvs v g.series }
  else
    none

/-- Modelled from the spec: `Reset()` of the Prometheus library, which drops every series of
this gauge. -/
def GaugeVec.Reset (g : GaugeVec) : GaugeVec :=
  { g with series := [] }

/-- The value stored under `k` in a list of series. -/
def seriesGet (k : List String) : List (List String × Int) → Option Int
  | [] => none
  | (k', v) :: rest => if k' = k then some v else seriesGet k rest

/-- The value currently stored under a label tuple. -/
def GaugeVec.get (g : GaugeVec) (lvs : List String) : Option Int :=
  seriesGet lvs g.series

/-! ## The poller `getRunnersOrganizationFromGithub` -/

/-- The two settings read from the `config` package, which is declared outside the sources:
`config.Github.Organizations.Value()` and `config.Github.Refresh` (seconds). -/
structure Config where
  Organizations : List String
  Refresh : Int
deriving DecidableEq, Repr

/-- What the poller does to the outside world. A fetch carries the events of the call to
`getAllOrgRunners` and the records it returned. -/
inductive PollEvent where
  | fetch (orga : String) (api : List ApiEvent) (runners : List (Option Runner))
  | set (lvs : List String) (v : Int)
  | sleep (d : Int)
  | reset
deriving DecidableEq, Repr

/-- Why a run of the poller stops: a nil pointer is dereferenced (a Go panic), the gauge
rejects the number of label values (a Go panic), or the fetch does not return. -/
inductive Failure where
  | nilDereference
  | labelCardinality
  | noAnswer
deriving DecidableEq, Repr

/-- The state of the poller and its world. -/
structure Poller (σ : Type) where
  srv : σ
  now : Int
  gauge : GaugeVec
  trace : List PollEvent
deriving DecidableEq, Repr

/-- The call `strconv.FormatInt(i, 10)`. -/
def FormatInt (i : Int) : String :=
  toString i

/-- The five arguments of `WithLabelValues` in the poller's inner loop, evaluated in source
order: `runnerLabelsToString(runner)` reads `runner.Labels`, then `*runner.OS` and
`*runner.Name` are dereferenced. `none` is a nil pointer dereference. -/
def labelValues (orga : String) : Option Runner → Option (List String)
  | none => none
  | some r =>
    let labels_str := runnerLabelsToString r
    match r.OS, r.Name with
    | some os, some name => some [orga, os, name, FormatInt (Runner.GetID (some r)), labels_str]
    | _, _ => none

/-- The body of the inner loop `for _, runner := range runners`. -/
def setRunner {σ : Type} (orga : String) (p : Poller σ) (runner : Option Runner) :
    Except Failure (Poller σ) :=
  match labelValues orga runner with
  | none => .error .nilDereference
  | some lvs =>
    let v := runnerStatusToCode runner
    match p.gauge.Set lvs v with
    | none => .error .labelCardinality
    | some g => .ok { p with gauge := g, trace := p.trace ++ [PollEvent.set lvs v] }

/-- The inner loop `for _, runner := range runners`. -/
def setRunners {σ : Type} (orga : String) : List (Option Runner) → Poller σ →
    Except Failure (Poller σ)
  | [], p => .ok p
  | runner :: rest, p =>
    match setRunner orga p runner with
    | .error e => .error e
    | .ok p' => setRunners orga rest p'

/-- The body of the loop over organizations: fetch, then set one series per runner. -/
def fetchOrg {σ : Type} (server : Server σ) (fuel : Nat) (p : Poller σ) (orga : String) :
    Except Failure (Poller σ) :=
  match getAllOrgRunners server fuel orga p.srv p.now with
  | none => .error .noAnswer
  | some f =>
    setRunners orga f.runners
      { p with srv := f.srv, now := f.now,
               trace := p.trace ++ [PollEvent.fetch orga f.trace f.runners] }

/-- The loop `for _, orga := range config.Github.Organizations.Value()`. -/
def fetchOrgs {σ : Type} (server : Server σ) (fuel : Nat) : List String → Poller σ →
    Except Failure (Poller σ)
  | [], p => .ok p
  | orga :: rest, p =>
    match fetchOrg server fuel p orga with
    | .error e => .error e
    | .ok p' => fetchOrgs server fuel rest p'

/-- One fetch pass: the loop over the configured organizations. -/
def fetchPass {σ : Type} (server : Server σ) (fuel : Nat) (cfg : Config) (p : Poller σ) :
    Except Failure (Poller σ) :=
  fetchOrgs server fuel cfg.Organizations p

/-- A 64-bit signed integer: the value of `x` after wrap-around. -/
def wrapInt64 (x : Int) : Int :=
  (x + 2 ^ 63) % 2 ^ 64 - 2 ^ 63

/-- The end of one iteration of the outer loop:
`time.Sleep(time.Duration(config.Github.Refresh) * time.Second)` and then
`runnersOrganizationGauge.Reset()`. -/
def sleepAndReset {σ : Type} (cfg : Config) (p : Poller σ) : Poller σ :=
  let d := wrapInt64 (cfg.Refresh * 1000000000)
  { p with now := p.now + max d 0, gauge := p.gauge.Reset,
           trace := p.trace ++ [PollEvent.sleep d, PollEvent.reset] }

/-- The first `n` iterations of the outer `for { ... }` of `getRunnersOrganizationFromGithub`:
each is a fetch pass, the sleep and the reset. -/
def pollerIterations {σ : Type} (server : Server σ) (fuel : Nat) (cfg : Config) :
    Nat → Poller σ → Except Failure (Poller σ)
  | 0, p => .ok p
  | n + 1, p =>
    match fetchPass server fuel cfg p with
    | .error e => .error e
    | .ok p' => pollerIterations server fuel cfg n (sleepAndReset cfg p')

/-- The poller at the moment it calls `time.Sleep` for the `(n+1)`-th time: `n` whole
iterations and one more fetch pass. -/
def pollerAtSleep {σ : Type} (server : Server σ) (fuel : Nat) (cfg : Config) (n : Nat)
    (p : Poller σ) : Except Failure (Poller σ) :=
  match pollerIterations server fuel cfg n p with
  | .error e => .error e
  | .ok p' => fetchPass server fuel cfg p'

/-- The poller when the goroutine starts: the gauge as created, nothing done yet. -/
def Poller.start {σ : Type} (srv : σ) (now : Int) : Poller σ :=
  { srv := srv, now := now, gauge := runnersOrganizationGauge, trace := [] }

/-- The label tuple of a runner of organization `orga` as the specification words it:
organization, runner OS, runner name, decimal rendering of the runner id, and the label names
joined by a comma in their given order. -/
def runnerTuple (orga os name : String) (rr : Runner) : List String :=
  [orga, os, name, FormatInt (rr.ID.getD 0),
    ",".intercalate (rr.Labels.map RunnerLabels.GetName)]

/-- The writes that the inner loop makes for the records of one fetch, in order: label tuple
and status code. -/
def setsOf (orga : String) (runners : List (Option Runner)) : List (List String × Int) :=
  runners.filterMap (fun r => (labelValues orga r).map (fun lvs => (lvs, runnerStatusToCode r)))

/-- The series after a list of writes. -/
def applySets (sets : List (List String × Int)) (series : List (List String × Int)) :
    List (List String × Int) :=
  sets.foldl (fun s kv => upsert kv.1 kv.2 s) series

/-- The value of the last write to `k` in a list of writes. -/
def lastSet (k : List String) : List (List String × Int) → Option Int
  | [] => none
  | kv :: rest =>
    match lastSet k rest with
    | some v => some v
    | none => if kv.1 = k then some kv.2 else none

/-- The poller after a list of writes. -/
def afterSets {σ : Type} (p : Poller σ) (sets : List (List String × Int)) : Poller σ :=
  { p with gauge := { p.gauge with series := applySets sets p.gauge.series },
           trace := p.trace ++ sets.map (fun kv => PollEvent.set kv.1 kv.2) }

/-- The fetches of one pass, without the gauge: `getAllOrgRunners` for each organization in
turn, on the server and clock left by the one before. -/
def fetchAll {σ : Type} (server : Server σ) (fuel : Nat) : List String → σ → Int →
    Option (List (String × Fetched σ))
  | [], _, _ => some []
  | orga :: rest, srv, now =>
    match getAllOrgRunners server fuel orga srv now with
    | none => none
    | some f =>
      match fetchAll server fuel rest f.srv f.now with
      | none => none
      | some res => some ((orga, f) :: res)

/-- The poller after the fetch `f` for `orga` and the writes for its records. -/
def afterFetch {σ : Type} (p : Poller σ) (orga : String) (f : Fetched σ) : Poller σ :=
  afterSets
    { p with srv := f.srv, now := f.now,
             trace := p.trace ++ [PollEvent.fetch orga f.trace f.runners] }
    (setsOf orga f.runners)

/-- The poller after the fetches `res` of one pass and their writes. -/
def afterPass {σ : Type} (p : Poller σ) : List (String × Fetched σ) → Poller σ
  | [] => p
  | x :: rest => afterPass (afterFetch p x.1 x.2) rest

/-- All the writes of one pass, in order. -/
def passSets {σ : Type} (res : List (String × Fetched σ)) : List (List String × Int) :=
  res.flatMap (fun x => setsOf x.1 x.2.runners)

/-- All the events of one pass, in order: each fetch followed by its writes. -/
def passEvents {σ : Type} (res : List (String × Fetched σ)) : List PollEvent :=
  res.flatMap (fun x => PollEvent.fetch x.1 x.2.trace x.2.runners ::
    (setsOf x.1 x.2.runners).map (fun kv => PollEvent.set kv.1 kv.2))

/-- Whether some fetch is the event right after a reset. -/
def fetchRightAfterReset : List PollEvent → Bool
  | PollEvent.reset :: PollEvent.fetch _ _ _ :: _ => true
  | _ :: rest => fetchRightAfterReset rest
  | [] => false

/-- Whether an event is a fetch. -/
def PollEvent.isFetch : PollEvent → Bool
  | .fetch _ _ _ => true
  | _ => false

/-- Whether an event is a set. -/
def PollEvent.isSet : PollEvent → Bool
  | .set _ _ => true
  | _ => false

/-! ## `getEnterpriseApiUrl` -/

/-- The three fields of `url.URL` that `getEnterpriseApiUrl` reads. -/
structure URL where
  Scheme : String
  Host : String
  Path : String
deriving DecidableEq, Repr

/-- The call `strings.HasSuffix(s, suffix)`. -/
def HasSuffix (s suffix : String) : Bool :=
  suffix.data.isSuffixOf s.data

/-- The call `strings.HasPrefix(s, pre)`. -/
def HasPrefix (s pre : String) : Bool :=
  pre.data.isPrefixOf s.data

/-- Whether `sub` occurs in `s` at some position. -/
def occursIn (sub : List Char) : List Char → Bool
  | [] => sub.isEmpty
  | c :: cs => sub.isPrefixOf (c :: cs) || occursIn sub cs

/-- The call `strings.Contains(s, substr)`. -/
def Contains (s substr : String) : Bool :=
  occursIn substr.data s.data

/-- The call `strings.TrimSuffix(s, suffix)`. -/
def TrimSuffix (s suffix : String) : String :=
  if HasSuffix s suffix then ⟨s.data.take (s.data.length - suffix.data.length)⟩ else s

/-- The function `getEnterpriseApiUrl`. The standard-library parser `url.Parse` is a
parameter. -/
def getEnterpriseApiUrl (parse : String → Except String URL) (baseURL : String) :
    Except String String :=
  match parse baseURL with
  | .error err => .error err
  | .ok baseEndpoint =>
    let path1 :=
      if !HasSuffix baseEndpoint.Path "/" then baseEndpoint.Path ++ "/" else baseEndpoint.Path
    let path2 :=
      if !HasSuffix path1 "/api/v3/" && !HasPrefix baseEndpoint.Host "api." &&
          !Contains baseEndpoint.Host ".api." then
        path1 ++ "api/v3/"
      else path1
    .ok (baseEndpoint.Scheme ++ "://" ++ baseEndpoint.Host ++ TrimSuffix path2 "/")

/-- The path with a slash appended if it did not already end in one. -/
def slashTerminated (path : String) : String :=
  if "/".data <:+ path.data then path else path ++ "/"

/-- The API root as the specification words it: the slash-terminated path, extended by
`api/v3/` unless the host starts with `api.`, the host contains `.api.` or the
slash-terminated path ends in `/api/v3/`; then one trailing slash dropped. -/
def apiRootSpec (u : URL) : String :=
  let P :=
    if ¬ ("api.".data <+: u.Host.data) ∧ ¬ (".api.".data <:+: u.Host.data) ∧
        ¬ ("/api/v3/".data <:+ (slashTerminated u.Path).data) then
      slashTerminated u.Path ++ "api/v3/"
    else slashTerminated u.Path
  u.Scheme ++ "://" ++ u.Host ++ ⟨P.data.dropLast⟩

/-! ## Status codes -/

/-- C1: `runnerStatusToCode` is total and returns one of `0`, `1`, `2`, `-1`: `0` exactly for
status "offline", `1` exactly for "online" with the busy flag false or absent, `2` exactly for
"online" with the busy flag true, and `-1` exactly for every other status, the empty string of
an absent status included. -/
theorem runnerStatusToCode_total (runner : Option Runner) :
    (runnerStatusToCode runner = 0 ∨ runnerStatusToCode runner = 1 ∨
      runnerStatusToCode runner = 2 ∨ runnerStatusToCode runner = -1) ∧
    (runnerStatusToCode runner = 0 ↔ Runner.GetStatus runner = "offline") ∧
    (runnerStatusToCode runner = 1 ↔
      Runner.GetStatus runner = "online" ∧ Runner.GetBusy runner = false) ∧
    (runnerStatusToCode runner = 2 ↔
      Runner.GetStatus runner = "online" ∧ Runner.GetBusy runner = true) ∧
    (runnerStatusToCode runner = -1 ↔
      Runner.GetStatus runner ≠ "offline" ∧ Runner.GetStatus runner ≠ "online") ∧
    (Runner.GetStatus runner = "" → runnerStatusToCode runner = -1) ∧
    (∀ r : Runner, r.Status = none → Runner.GetStatus (some r) = "") ∧
    (∀ r : Runner, r.Busy = none → Runner.GetBusy (some r) = false) := by
  have hne : ("online" : String) ≠ "offline" := by decide
  have he1 : ("" : String) ≠ "offline" := by decide
  have he2 : ("" : String) ≠ "online" := by decide
  refine ⟨?_, ?_, ?_, ?_, ?_, ?_, ?_, ?_⟩
  · unfold runnerStatusToCode
    by_cases h1 : Runner.GetStatus runner = "offline"
    · simp [h1]
    · by_cases h2 : Runner.GetStatus runner = "online"
      · cases hb : Runner.GetBusy runner <;> simp [h2, hb, hne]
      · simp [h1, h2]
  · unfold runnerStatusToCode
    by_cases h1 : Runner.GetStatus runner = "offline"
    · simp [h1]
    · by_cases h2 : Runner.GetStatus runner = "online"
      · cases hb : Runner.GetBusy runner <;> simp [h2, hb, hne]
      · simp [h1, h2]
  · unfold runnerStatusToCode
    by_cases h1 : Runner.GetStatus runner = "offline"
    · simp [h1, hne.symm]
    · by_cases h2 : Runner.GetStatus runner = "online"
      · cases hb : Runner.GetBusy runner <;> simp [h2, hb, hne]
      · simp [h1, h2]
  · unfold runnerStatusToCode
    by_cases h1 : Runner.GetStatus runner = "offline"
    · simp [h1, hne.symm]
    · by_cases h2 : Runner.GetStatus runner = "online"
      · cases hb : Runner.GetBusy runner <;> simp [h2, hb, hne]
      · simp [h1, h2]
  · unfold runnerStatusToCode
    by_cases h1 : Runner.GetStatus runner = "offline"
    · simp [h1]
    · by_cases h2 : Runner.GetStatus runner = "online"
      · cases hb : Runner.GetBusy runner <;> simp [h2, hb, hne]
      · simp [h1, h2]
  · intro h
    simp [runnerStatusToCode, h, he1, he2]
  · intro r h
    simp [Runner.GetStatus, h]
  · intro r h
    simp [Runner.GetBusy, h]

/-! ## The fetcher -/

theorem loop_okPages (orga : String) (pages : List (Nat × List (Option Runner) × Int))
    (h : ∀ pg ∈ pages, pg.2.2 ≠ 0) :
    ∀ (fuel : Nat) (rest : List ApiCall) (now page perPage : Int)
      (acc : List (Option Runner)) (tr : List ApiEvent),
      getAllOrgRunnersLoop scripted orga (pages.length + fuel) (pages.map okCall ++ rest) now
          ⟨page, perPage⟩ acc tr =
        getAllOrgRunnersLoop scripted orga fuel rest (now + tookSum pages)
          ⟨lastCursor page (pages.map (·.2.2)), perPage⟩ (acc ++ pages.flatMap (·.2.1))
          (tr ++ (cursors page (pages.map (·.2.2))).map (pageRequest orga perPage)) := by
  induction pages with
  | nil => intro fuel rest now page perPage acc tr; simp [lastCursor, cursors, tookSum]
  | cons pg pgs ih =>
    intro fuel rest now page perPage acc tr
    have hpg : pg.2.2 ≠ 0 := h pg (List.mem_cons_self _ _)
    have ih2 := ih (fun q hq => h q (List.mem_cons_of_mem _ hq))
    have hlen : (pg :: pgs).length + fuel = (pgs.length + fuel) + 1 := by
      simp only [List.length_cons]; omega
    rw [hlen]
    simp only [List.map_cons, List.cons_append, getAllOrgRunnersLoop, scripted, okCall, hpg,
      if_false]
    rw [ih2]
    simp only [lastCursor, cursors, tookSum, List.flatMap_cons, List.map_cons, List.append_assoc,
      List.singleton_append, pageRequest, add_assoc]

theorem cursors_append_lastCursor (c : Int) (l : List Int) :
    cursors c l ++ [lastCursor c l] = c :: l := by
  induction l generalizing c with
  | nil => rfl
  | cons a l ih => simp [cursors, lastCursor, ih]

theorem clockAfterWaits_eq (rls : List (Nat × Int)) :
    ∀ now : Int, clockAfterWaits now rls =
      now + tookSum rls + ((resetWaits now rls).map (fun d => max d 0)).sum := by
  induction rls with
  | nil => intro now; simp [clockAfterWaits, tookSum, resetWaits]
  | cons rl rls ih =>
    intro now
    obtain ⟨took, reset⟩ := rl
    simp only [clockAfterWaits, tookSum, resetWaits, List.map_cons, List.sum_cons]
    rw [ih]
    ring

theorem resetWaits_length (rls : List (Nat × Int)) :
    ∀ now : Int, (resetWaits now rls).length = rls.length := by
  induction rls with
  | nil => intro now; rfl
  | cons rl rls ih =>
    intro now
    obtain ⟨took, reset⟩ := rl
    simp [resetWaits, ih]

theorem loop_rateLimited (orga : String) (rls : List (Nat × Int)) :
    ∀ (fuel : Nat) (rest : List ApiCall) (now : Int) (opt : ListOptions)
      (acc : List (Option Runner)) (tr : List ApiEvent),
      getAllOrgRunnersLoop scripted orga (rls.length + fuel) (rls.map rateLimitedCall ++ rest)
          now opt acc tr =
        getAllOrgRunnersLoop scripted orga fuel rest (clockAfterWaits now rls) opt acc
          (tr ++ (resetWaits now rls).flatMap
            (fun d => [ApiEvent.request ⟨orga, opt⟩, ApiEvent.sleep d])) := by
  induction rls with
  | nil => intro fuel rest now opt acc tr; simp [clockAfterWaits, resetWaits]
  | cons rl rls ih =>
    intro fuel rest now opt acc tr
    obtain ⟨took, reset⟩ := rl
    have hlen : ((took, reset) :: rls).length + fuel = (rls.length + fuel) + 1 := by
      simp only [List.length_cons]; omega
    rw [hlen]
    simp only [List.map_cons, List.cons_append, getAllOrgRunnersLoop, scripted, rateLimitedCall]
    rw [ih]
    simp only [clockAfterWaits, resetWaits, List.flatMap_cons, List.append_assoc,
      List.cons_append, List.nil_append]

/-- C2: when pages `1..k-1` succeed, each announcing a next page, and the request for page `k`
fails with an error that is not a rate-limit error, `getAllOrgRunners` returns the records of
pages `1..k-1` in order, has issued exactly `k` requests, leaves the rest of the answers
untouched, and does return; with no page before the failure it returns no records. -/
theorem getAllOrgRunners_error_keeps_pages (orga : String)
    (pages : List (Nat × List (Option Runner) × Int)) (h : ∀ pg ∈ pages, pg.2.2 ≠ 0)
    (took : Nat) (msg : String) (rest : List ApiCall) (now : Int) (extra : Nat) :
    getAllOrgRunners scripted (pages.length + (1 + extra)) orga
        (pages.map okCall ++ ⟨took, .failed msg⟩ :: rest) now =
      some { runners := pages.flatMap (·.2.1)
             srv := rest
             now := now + tookSum pages + took
             trace := (0 :: pages.map (·.2.2)).map (pageRequest orga 200) } ∧
    ((0 :: pages.map (·.2.2)).map (pageRequest orga 200)).length = pages.length + 1 ∧
    (pages = [] →
      getAllOrgRunners scripted (1 + extra) orga (⟨took, .failed msg⟩ :: rest) now =
        some { runners := [], srv := rest, now := now + took,
               trace := [pageRequest orga 200 0] }) := by
  have key : ∀ pgs : List (Nat × List (Option Runner) × Int), (∀ pg ∈ pgs, pg.2.2 ≠ 0) →
      getAllOrgRunners scripted (pgs.length + (1 + extra)) orga
        (pgs.map okCall ++ ⟨took, .failed msg⟩ :: rest) now =
      some { runners := pgs.flatMap (·.2.1)
             srv := rest
             now := now + tookSum pgs + took
             trace := (0 :: pgs.map (·.2.2)).map (pageRequest orga 200) } := by
    intro pgs hp
    unfold getAllOrgRunners
    rw [loop_okPages orga pgs hp, Nat.add_comm 1 extra]
    rw [← cursors_append_lastCursor 0 (pgs.map (·.2.2))]
    simp only [getAllOrgRunnersLoop, scripted, List.nil_append, List.map_append, List.map_cons,
      List.map_nil, pageRequest]
  refine ⟨key pages h, by simp, ?_⟩
  intro _
  simpa [tookSum] using key [] (by simp)

theorem timeUntil_of_fits (t now : Int) (h : minDuration ≤ t - now ∧ t - now ≤ maxDuration) :
    timeUntil t now = t - now := by
  unfold timeUntil
  rw [if_neg (not_lt.2 h.2), if_neg (not_lt.2 h.1)]

theorem resetWaits_eq_exactWaits (rls : List (Nat × Int)) :
    ∀ now : Int, (∀ d ∈ exactWaits now rls, minDuration ≤ d ∧ d ≤ maxDuration) →
      resetWaits now rls = exactWaits now rls := by
  induction rls with
  | nil => intro now _; rfl
  | cons rl rls ih =>
    intro now h
    obtain ⟨took, reset⟩ := rl
    have hfit := timeUntil_of_fits reset (now + took) (h _ (List.mem_cons_self _ _))
    simp only [resetWaits, exactWaits, hfit]
    rw [ih _ (fun d hd => h d (List.mem_cons_of_mem _ hd))]

/-- C3, as stated, fails: for a rate-limit error whose reset instant lies `10^19` ns after
the clock, `time.Until` yields the largest `Duration`, so the one sleep lasts
`9223372036854775807` ns, not the wait until the reset instant, and the retry is issued at
clock `9223372036854775807`, before the reset instant. -/
theorem getAllOrgRunners_rateLimit_counterexample :
    getAllOrgRunners scripted 2 "acme"
        [rateLimitedCall (0, 10000000000000000000), okCall (0, [some runnerR1], 0)] 0 =
      some { runners := [some runnerR1]
             srv := []
             now := 9223372036854775807
             trace := [pageRequest "acme" 200 0, ApiEvent.sleep 9223372036854775807,
               pageRequest "acme" 200 0] } ∧
    exactWaits 0 [(0, 10000000000000000000)] = [10000000000000000000] ∧
    (9223372036854775807 : Int) < 10000000000000000000 := by
  refine ⟨by decide, by decide, by decide⟩

/-- C3, amended: when the first `N` answers are rate-limit errors and the next one succeeds
with no next page, `getAllOrgRunners` issues `N + 1` requests that all carry the same page
cursor, sleeps `N` times, once after each rate-limit error for `time.Until` of that error's
reset instant (the wait until the reset instant, pinned to the range of a `Duration`), is
blocked in total for the sum of the positive ones among those waits, and returns exactly the
records of the successful page; when every wait until a reset instant fits a `Duration`, the
sleeps are exactly those waits. -/
theorem getAllOrgRunners_rateLimit_retries (orga : String) (rls : List (Nat × Int))
    (took : Nat) (recs : List (Option Runner)) (rest : List ApiCall) (now : Int)
    (extra : Nat) :
    getAllOrgRunners scripted (rls.length + (1 + extra)) orga
        (rls.map rateLimitedCall ++ okCall (took, recs, 0) :: rest) now =
      some { runners := recs
             srv := rest
             now := now + tookSum rls + ((resetWaits now rls).map (fun d => max d 0)).sum + took
             trace := (resetWaits now rls).flatMap
                 (fun d => [pageRequest orga 200 0, ApiEvent.sleep d]) ++
               [pageRequest orga 200 0] } ∧
    (resetWaits now rls).length = rls.length ∧
    ((∀ d ∈ exactWaits now rls, minDuration ≤ d ∧ d ≤ maxDuration) →
      resetWaits now rls = exactWaits now rls) := by
  refine ⟨?_, resetWaits_length rls now, resetWaits_eq_exactWaits rls now⟩
  unfold getAllOrgRunners
  rw [loop_rateLimited, Nat.add_comm 1 extra]
  simp only [getAllOrgRunnersLoop, scripted, okCall, if_true, List.nil_append,
    clockAfterWaits_eq, pageRequest]

/-- Witness of the amended C3: one rate-limit error with the reset 4 ns ahead, then a
page. -/
theorem getAllOrgRunners_rateLimit_retries_witness :
    (∀ d ∈ exactWaits 0 [(1, 5)], minDuration ≤ d ∧ d ≤ maxDuration) ∧
    getAllOrgRunners scripted 2 "acme"
        ([((1 : Nat), (5 : Int))].map rateLimitedCall ++ [okCall (1, [some runnerR1], 0)])
        0 =
      some { runners := [some runnerR1], srv := [], now := 6,
             trace := [pageRequest "acme" 200 0, ApiEvent.sleep 4,
               pageRequest "acme" 200 0] } ∧
    resetWaits 0 [(1, 5)] = exactWaits 0 [(1, 5)] :=
  have w := getAllOrgRunners_rateLimit_retries "acme" [(1, 5)] 1 [some runnerR1] [] 0 0
  ⟨by decide, w.1, w.2.2 (by decide)⟩

theorem pageNumber_pos (c : Int) : 1 ≤ pageNumber c := by
  unfold pageNumber
  split
  · exact le_refl 1
  · omega

theorem pageNumber_succ (p : Nat) : pageNumber ((p + 1 : Nat) : Int) = p + 1 := by
  unfold pageNumber
  have : ¬ (((p + 1 : Nat) : Int) ≤ 0) := by omega
  rw [if_neg this]
  exact Int.toNat_natCast (p + 1)

theorem loop_pagedServer (L : List (Option Runner)) (size : Nat) (orga : String) :
    ∀ (fuel : Nat) (c now perPage : Int) (acc : List (Option Runner)) (tr : List ApiEvent),
      0 < fuel → L.length ≤ (pageNumber c - 1 + fuel) * size →
      ∃ f, getAllOrgRunnersLoop (pagedServer L size) orga fuel () now ⟨c, perPage⟩ acc tr =
          some f ∧ f.runners = acc ++ L.drop ((pageNumber c - 1) * size) := by
  intro fuel
  induction fuel with
  | zero => intro c now perPage acc tr h; exact absurd h (lt_irrefl 0)
  | succ k ih =>
    intro c now perPage acc tr _ hlen
    have hp := pageNumber_pos c
    have hsplit : pageNumber c * size = (pageNumber c - 1) * size + size := by
      have : pageNumber c = (pageNumber c - 1) + 1 := by omega
      conv_lhs => rw [this]
      rw [Nat.add_mul, Nat.one_mul]
    simp only [getAllOrgRunnersLoop, pagedServer]
    by_cases hmore : pageNumber c * size < L.length
    · have hk : 0 < k := by
        rcases Nat.eq_zero_or_pos k with hk0 | hk0
        · subst hk0
          have h1 : pageNumber c - 1 + (0 + 1) = pageNumber c := by omega
          rw [h1] at hlen
          omega
        · exact hk0
      have hnext : ((pageNumber c + 1 : Nat) : Int) ≠ 0 := by omega
      rw [if_pos hmore, if_neg hnext]
      have hlen2 : L.length ≤ (pageNumber ((pageNumber c + 1 : Nat) : Int) - 1 + k) * size := by
        rw [pageNumber_succ]
        have h1 : pageNumber c + 1 - 1 + k = pageNumber c - 1 + (k + 1) := by omega
        rw [h1]
        exact hlen
      obtain ⟨f, hf, hr⟩ := ih ((pageNumber c + 1 : Nat) : Int) (now + (0 : Nat)) perPage
        (acc ++ (L.drop ((pageNumber c - 1) * size)).take size)
        (tr ++ [ApiEvent.request ⟨orga, ⟨c, perPage⟩⟩]) hk hlen2
      refine ⟨f, hf, ?_⟩
      rw [hr, pageNumber_succ, List.append_assoc]
      congr 1
      have h2 : (pageNumber c + 1 - 1) * size = (pageNumber c - 1) * size + size := by
        rw [← hsplit]
        congr 1
      rw [h2, ← List.drop_drop]
      exact List.take_append_drop size (L.drop ((pageNumber c - 1) * size))
    · rw [if_neg hmore]
      simp only [if_true]
      refine ⟨_, rfl, ?_⟩
      show acc ++ (L.drop ((pageNumber c - 1) * size)).take size =
        acc ++ L.drop ((pageNumber c - 1) * size)
      congr 1
      apply List.take_of_length_le
      rw [List.length_drop]
      omega



/-- Witness of C2: one successful page announcing page 2, then a failure. -/
theorem getAllOrgRunners_error_keeps_pages_witness :
    (∀ pg ∈ [((1 : Nat), [some runnerR1], (2 : Int))], pg.2.2 ≠ 0) ∧
    getAllOrgRunners scripted 2 "acme"
        ([((1 : Nat), [some runnerR1], (2 : Int))].map okCall ++ [⟨1, .failed "boom"⟩]) 0 =
      some { runners := [some runnerR1], srv := [], now := 2,
             trace := [pageRequest "acme" 200 0, pageRequest "acme" 200 2] } :=
  ⟨by simp,
    (getAllOrgRunners_error_keeps_pages "acme" [(1, [some runnerR1], 2)] (by simp)
      1 "boom" [] 0 0).1⟩

/-- C4: when pages `p1..pm` all succeed, every page but the last announcing a non-zero next
page and the last announcing none, `getAllOrgRunners` returns their records concatenated in
cursor order, after exactly `m` requests, the first with the unset cursor and each later one
with the cursor announced by the page before; a first page that announces no next page is
returned after one request; and a server that serves a record list `L` in consecutive pages of
any positive size makes it return `L`. -/
theorem getAllOrgRunners_concatenates_pages (orga : String)
    (init : List (Nat × List (Option Runner) × Int)) (h : ∀ pg ∈ init, pg.2.2 ≠ 0)
    (took : Nat) (recs : List (Option Runner)) (rest : List ApiCall) (now : Int) (extra : Nat)
    (L : List (Option Runner)) (size : Nat) (hsize : 0 < size) :
    getAllOrgRunners scripted (init.length + (1 + extra)) orga
        (init.map okCall ++ okCall (took, recs, 0) :: rest) now =
      some { runners := init.flatMap (·.2.1) ++ recs
             srv := rest
             now := now + tookSum init + took
             trace := (0 :: init.map (·.2.2)).map (pageRequest orga 200) } ∧
    ((0 :: init.map (·.2.2)).map (pageRequest orga 200)).length = init.length + 1 ∧
    getAllOrgRunners scripted (1 + extra) orga (okCall (took, recs, 0) :: rest) now =
      some { runners := recs, srv := rest, now := now + took,
             trace := [pageRequest orga 200 0] } ∧
    ∃ f, getAllOrgRunners (pagedServer L size) (L.length + (1 + extra)) orga () now = some f ∧
      f.runners = L := by
  have key : ∀ pgs : List (Nat × List (Option Runner) × Int), (∀ pg ∈ pgs, pg.2.2 ≠ 0) →
      getAllOrgRunners scripted (pgs.length + (1 + extra)) orga
        (pgs.map okCall ++ okCall (took, recs, 0) :: rest) now =
      some { runners := pgs.flatMap (·.2.1) ++ recs
             srv := rest
             now := now + tookSum pgs + took
             trace := (0 :: pgs.map (·.2.2)).map (pageRequest orga 200) } := by
    intro pgs hp
    unfold getAllOrgRunners
    rw [loop_okPages orga pgs hp, Nat.add_comm 1 extra]
    rw [← cursors_append_lastCursor 0 (pgs.map (·.2.2))]
    simp only [getAllOrgRunnersLoop, scripted, okCall, if_true, List.nil_append,
      List.map_append, List.map_cons, List.map_nil, pageRequest]
  refine ⟨key init h, by simp, ?_, ?_⟩
  · simpa [tookSum] using key [] (by simp)
  · have hfuel : 0 < L.length + (1 + extra) := by omega
    have hlen : L.length ≤ (pageNumber 0 - 1 + (L.length + (1 + extra))) * size := by
      have h0 : pageNumber 0 = 1 := by decide
      rw [h0]
      calc L.length ≤ (1 - 1 + (L.length + (1 + extra))) * 1 := by omega
        _ ≤ (1 - 1 + (L.length + (1 + extra))) * size := Nat.mul_le_mul_left _ hsize
    obtain ⟨f, hf, hr⟩ := loop_pagedServer L size orga (L.length + (1 + extra)) 0 now 200 [] []
      hfuel hlen
    refine ⟨f, hf, ?_⟩
    rw [hr]
    have h0 : pageNumber 0 = 1 := by decide
    simp [h0]

/-- Witness of C4: two pages from a script, and a two-record list served one record per
page. -/
theorem getAllOrgRunners_concatenates_pages_witness :
    (∀ pg ∈ [((1 : Nat), [some runnerR1], (2 : Int))], pg.2.2 ≠ 0) ∧ 0 < 1 ∧
    getAllOrgRunners scripted 2 "acme"
        ([((1 : Nat), [some runnerR1], (2 : Int))].map okCall ++
          [okCall (1, [some runnerR2], 0)]) 0 =
      some { runners := [some runnerR1, some runnerR2], srv := [], now := 2,
             trace := [pageRequest "acme" 200 0, pageRequest "acme" 200 2] } ∧
    ∃ f, getAllOrgRunners (pagedServer [some runnerR1, some runnerR2] 1) 3 "acme" () 0 =
        some f ∧ f.runners = [some runnerR1, some runnerR2] :=
  have w := getAllOrgRunners_concatenates_pages "acme" [(1, [some runnerR1], 2)] (by simp)
    1 [some runnerR2] [] 0 0 [some runnerR1, some runnerR2] 1 (by decide)
  ⟨by simp, by decide, w.1, w.2.2.2⟩


/-! ## The enterprise API root -/

theorem HasSuffix_iff (s t : String) : HasSuffix s t = true ↔ t.data <:+ s.data := by
  unfold HasSuffix
  exact List.isSuffixOf_iff_suffix

theorem HasPrefix_iff (s t : String) : HasPrefix s t = true ↔ t.data <+: s.data := by
  unfold HasPrefix
  exact List.isPrefixOf_iff_prefix

theorem occursIn_iff (sub : List Char) : ∀ l : List Char, occursIn sub l = true ↔ sub <:+: l := by
  intro l
  induction l with
  | nil => simp [occursIn, List.infix_nil]
  | cons c cs ih =>
    rw [occursIn, Bool.or_eq_true, ih, List.infix_cons_iff, List.isPrefixOf_iff_prefix]

theorem Contains_iff (s t : String) : Contains s t = true ↔ t.data <:+: s.data := by
  unfold Contains
  exact occursIn_iff _ _

theorem slash_suffix_iff (l : List Char) : "/".data <:+ l ↔ l.getLast? = some '/' := by
  rw [List.getLast?_eq_some_iff]
  constructor
  · rintro ⟨t, ht⟩
    exact ⟨t, ht.symm⟩
  · rintro ⟨t, ht⟩
    exact ⟨t, ht.symm⟩

theorem TrimSuffix_slash (s : String) (h : "/".data <:+ s.data) :
    TrimSuffix s "/" = ⟨s.data.dropLast⟩ := by
  unfold TrimSuffix
  rw [if_pos ((HasSuffix_iff s "/").2 h), List.dropLast_eq_take]
  rfl

theorem slashTerminated_eq (path : String) :
    (if !HasSuffix path "/" then path ++ "/" else path) = slashTerminated path := by
  unfold slashTerminated
  by_cases h : "/".data <:+ path.data
  · rw [if_pos h]
    simp [(HasSuffix_iff path "/").2 h]
  · rw [if_neg h]
    have : HasSuffix path "/" = false := by
      rw [← Bool.not_eq_true, HasSuffix_iff]
      exact h
    simp [this]

theorem slashTerminated_suffix (path : String) : "/".data <:+ (slashTerminated path).data := by
  unfold slashTerminated
  by_cases h : "/".data <:+ path.data
  · rw [if_pos h]; exact h
  · rw [if_neg h, String.data_append]
    exact List.suffix_append _ _

theorem getEnterpriseApiUrl_eq_spec (parse : String → Except String URL) (baseURL : String)
    (u : URL) (h : parse baseURL = .ok u) :
    getEnterpriseApiUrl parse baseURL = .ok (apiRootSpec u) := by
  unfold getEnterpriseApiUrl apiRootSpec
  simp only [h, slashTerminated_eq]
  by_cases hc : ¬ ("api.".data <+: u.Host.data) ∧ ¬ (".api.".data <:+: u.Host.data) ∧
      ¬ ("/api/v3/".data <:+ (slashTerminated u.Path).data)
  · rw [if_pos hc]
    have h1 : HasSuffix (slashTerminated u.Path) "/api/v3/" = false := by
      rw [← Bool.not_eq_true, HasSuffix_iff]; exact hc.2.2
    have h2 : HasPrefix u.Host "api." = false := by
      rw [← Bool.not_eq_true, HasPrefix_iff]; exact hc.1
    have h3 : Contains u.Host ".api." = false := by
      rw [← Bool.not_eq_true, Contains_iff]; exact hc.2.1
    simp only [h1, h2, h3, Bool.not_false, Bool.and_self, if_true]
    rw [TrimSuffix_slash]
    rw [String.data_append]
    exact ⟨(slashTerminated u.Path).data ++ "api/v3".data, by rw [List.append_assoc]; rfl⟩
  · rw [if_neg hc]
    have hb : (!HasSuffix (slashTerminated u.Path) "/api/v3/" && !HasPrefix u.Host "api." &&
        !Contains u.Host ".api.") = false := by
      rw [← Bool.not_eq_true]
      intro hb
      simp only [Bool.and_eq_true, Bool.not_eq_true', ← Bool.not_eq_true, HasSuffix_iff,
        HasPrefix_iff, Contains_iff] at hb
      exact hc ⟨hb.1.2, hb.2, hb.1.1⟩
    rw [hb]
    simp only [Bool.false_eq_true, if_false]
    rw [TrimSuffix_slash _ (slashTerminated_suffix u.Path)]


theorem getLast?_append_of_ne_nil (l l' : List Char) (h : l' ≠ []) :
    (l ++ l').getLast? = l'.getLast? := by
  rw [List.getLast?_append]
  cases hl : l'.getLast? with
  | none => exact absurd (List.getLast?_eq_none_iff.1 hl) h
  | some x => rfl

theorem api_v3_suffix_slashTerminated (path : String)
    (h : "/api/v3".data <:+ path.data ∨ "/api/v3/".data <:+ path.data) :
    "/api/v3/".data <:+ (slashTerminated path).data := by
  rcases h with h | h
  · obtain ⟨t, ht⟩ := h
    have hlast : path.data.getLast? = some '3' := by
      rw [← ht, getLast?_append_of_ne_nil _ _ (by decide)]
      rfl
    have hno : ¬ ("/".data <:+ path.data) := by
      rw [slash_suffix_iff, hlast]
      decide
    unfold slashTerminated
    rw [if_neg hno, String.data_append, ← ht, List.append_assoc]
    exact ⟨t, rfl⟩
  · have hs : "/".data <:+ path.data := List.IsSuffix.trans ⟨"/api/v3".data, rfl⟩ h
    unfold slashTerminated
    rw [if_pos hs]
    exact h

/-- C5: for every parsed base URL, `getEnterpriseApiUrl` returns scheme, `://`, host and the
slash-terminated path, extended by `api/v3/` exactly when the host neither starts with `api.`
nor contains `.api.` and the slash-terminated path does not already end in `/api/v3/`, with
one trailing slash dropped. The base URL `https://github.example.com` gives
`https://github.example.com/api/v3`, and an API host or a path ending in `/api/v3` gets no
sub-path appended. -/
theorem getEnterpriseApiUrl_api_root (parse : String → Except String URL) (baseURL : String)
    (u : URL) (h : parse baseURL = .ok u) :
    getEnterpriseApiUrl parse baseURL = .ok (apiRootSpec u) ∧
    (u = ⟨"https", "github.example.com", ""⟩ →
      getEnterpriseApiUrl parse baseURL = .ok "https://github.example.com/api/v3") ∧
    ("api.".data <+: u.Host.data ∨ ".api.".data <:+: u.Host.data ∨
        "/api/v3".data <:+ u.Path.data ∨ "/api/v3/".data <:+ u.Path.data →
      getEnterpriseApiUrl parse baseURL =
        .ok (u.Scheme ++ "://" ++ u.Host ++ ⟨(slashTerminated u.Path).data.dropLast⟩)) := by
  have hspec := getEnterpriseApiUrl_eq_spec parse baseURL u h
  refine ⟨hspec, ?_, ?_⟩
  · intro hu
    rw [hspec, hu]
    exact congrArg Except.ok (by decide)
  · intro hcase
    rw [hspec]
    unfold apiRootSpec
    have hc : ¬ (¬ ("api.".data <+: u.Host.data) ∧ ¬ (".api.".data <:+: u.Host.data) ∧
        ¬ ("/api/v3/".data <:+ (slashTerminated u.Path).data)) := by
      rintro ⟨h1, h2, h3⟩
      rcases hcase with hh | hh | hh | hh
      · exact h1 hh
      · exact h2 hh
      · exact h3 (api_v3_suffix_slashTerminated _ (Or.inl hh))
      · exact h3 (api_v3_suffix_slashTerminated _ (Or.inr hh))
    simp only [if_neg hc]

/-- Witness of C5: the enterprise base URL of the scenario. -/
theorem getEnterpriseApiUrl_api_root_witness :
    getEnterpriseApiUrl (fun _ => .ok ⟨"https", "github.example.com", ""⟩)
        "https://github.example.com" = .ok "https://github.example.com/api/v3" :=
  (getEnterpriseApiUrl_api_root (fun _ => .ok ⟨"https", "github.example.com", ""⟩)
    "https://github.example.com" ⟨"https", "github.example.com", ""⟩ rfl).2.1 rfl

/-- C10 fails on the code: for the base URL `https://api.example.com//` (an API host, so no
sub-path is appended, and a path of two slashes) `strings.TrimSuffix` removes one slash only
and the returned API root is `https://api.example.com/`, which ends in a slash. -/
theorem getEnterpriseApiUrl_keeps_trailing_slash :
    getEnterpriseApiUrl (fun _ => .ok ⟨"https", "api.example.com", "//"⟩)
        "https://api.example.com//" = .ok "https://api.example.com/" ∧
    HasSuffix "https://api.example.com/" "/" = true :=
  ⟨congrArg Except.ok (by decide), by decide⟩

/-! ## The poller -/

theorem labelValues_length (orga : String) (r : Option Runner) (lvs : List String)
    (h : labelValues orga r = some lvs) : lvs.length = 5 := by
  unfold labelValues at h
  split at h
  · exact absurd h (by simp)
  · split at h
    · injection h with h
      rw [← h]
      rfl
    · exact absurd h (by simp)

theorem setRunner_ok {σ : Type} (orga : String) (p p' : Poller σ) (r : Option Runner)
    (h : setRunner orga p r = .ok p') :
    ∃ lvs, labelValues orga r = some lvs ∧ p' = afterSets p [(lvs, runnerStatusToCode r)] := by
  unfold setRunner at h
  split at h
  · exact absurd h (by simp)
  · rename_i lvs hl
    refine ⟨lvs, hl, ?_⟩
    dsimp only at h
    split at h
    · exact absurd h (by simp)
    · rename_i g hg
      unfold GaugeVec.Set at hg
      split at hg
      · injection hg with hg
        injection h with h
        rw [← h, ← hg]
        rfl
      · exact absurd hg (by simp)

theorem setRunner_total {σ : Type} (orga : String) (p : Poller σ) (r : Option Runner)
    (lvs : List String) (hl : labelValues orga r = some lvs)
    (hg : p.gauge.labelNames.length = 5) :
    setRunner orga p r = .ok (afterSets p [(lvs, runnerStatusToCode r)]) := by
  unfold setRunner
  simp only [hl, GaugeVec.Set, labelValues_length orga r lvs hl, hg, if_true]
  rfl

theorem afterSets_append {σ : Type} (p : Poller σ) (a b : List (List String × Int)) :
    afterSets (afterSets p a) b = afterSets p (a ++ b) := by
  simp [afterSets, applySets, List.foldl_append]

theorem setsOf_cons_some (orga : String) (r : Option Runner) (rs : List (Option Runner))
    (lvs : List String) (hl : labelValues orga r = some lvs) :
    setsOf orga (r :: rs) = (lvs, runnerStatusToCode r) :: setsOf orga rs := by
  simp [setsOf, List.filterMap_cons, hl]

theorem setRunners_ok {σ : Type} (orga : String) (rs : List (Option Runner)) :
    ∀ (p p' : Poller σ), setRunners orga rs p = .ok p' →
      p' = afterSets p (setsOf orga rs) ∧ ∀ r ∈ rs, (labelValues orga r).isSome = true := by
  induction rs with
  | nil =>
    intro p p' h
    simp only [setRunners] at h
    injection h with h
    refine ⟨?_, by simp⟩
    rw [← h]
    simp [afterSets, setsOf, applySets]
  | cons r rs ih =>
    intro p p' h
    simp only [setRunners] at h
    split at h
    · exact absurd h (by simp)
    · rename_i p1 h1
      obtain ⟨lvs, hl, hp1⟩ := setRunner_ok orga p p1 r h1
      obtain ⟨hp', hall⟩ := ih p1 p' h
      refine ⟨?_, ?_⟩
      · rw [hp', hp1, afterSets_append, setsOf_cons_some orga r rs lvs hl]
        rfl
      · intro x hx
        rcases List.mem_cons.1 hx with hx | hx
        · rw [hx, hl]; rfl
        · exact hall x hx

theorem afterSets_labelNames {σ : Type} (p : Poller σ) (sets : List (List String × Int)) :
    (afterSets p sets).gauge.labelNames = p.gauge.labelNames := rfl

theorem setRunners_total {σ : Type} (orga : String) (rs : List (Option Runner)) :
    ∀ (p : Poller σ), (∀ r ∈ rs, (labelValues orga r).isSome = true) →
      p.gauge.labelNames.length = 5 →
      setRunners orga rs p = .ok (afterSets p (setsOf orga rs)) := by
  induction rs with
  | nil =>
    intro p _ _
    simp [setRunners, afterSets, setsOf, applySets]
  | cons r rs ih =>
    intro p hall hg
    obtain ⟨lvs, hl⟩ := Option.isSome_iff_exists.1 (hall r (List.mem_cons_self _ _))
    simp only [setRunners, setRunner_total orga p r lvs hl hg]
    rw [ih _ (fun x hx => hall x (List.mem_cons_of_mem _ hx))
      (by rw [afterSets_labelNames]; exact hg)]
    rw [afterSets_append, setsOf_cons_some orga r rs lvs hl]
    rfl


theorem fetchOrg_ok {σ : Type} (server : Server σ) (fuel : Nat) (p p' : Poller σ)
    (orga : String) (h : fetchOrg server fuel p orga = .ok p') :
    ∃ f, getAllOrgRunners server fuel orga p.srv p.now = some f ∧ p' = afterFetch p orga f ∧
      ∀ r ∈ f.runners, (labelValues orga r).isSome = true := by
  unfold fetchOrg at h
  split at h
  · exact absurd h (by simp)
  · rename_i f hf
    obtain ⟨hp', hall⟩ := setRunners_ok orga f.runners _ p' h
    exact ⟨f, hf, hp', hall⟩

theorem fetchOrg_total {σ : Type} (server : Server σ) (fuel : Nat) (p : Poller σ)
    (orga : String) (f : Fetched σ)
    (hf : getAllOrgRunners server fuel orga p.srv p.now = some f)
    (hall : ∀ r ∈ f.runners, (labelValues orga r).isSome = true)
    (hg : p.gauge.labelNames.length = 5) :
    fetchOrg server fuel p orga = .ok (afterFetch p orga f) := by
  unfold fetchOrg
  simp only [hf]
  exact setRunners_total orga f.runners _ hall hg

theorem fetchOrgs_ok {σ : Type} (server : Server σ) (fuel : Nat) (orgs : List String) :
    ∀ (p p' : Poller σ), fetchOrgs server fuel orgs p = .ok p' →
      ∃ res, fetchAll server fuel orgs p.srv p.now = some res ∧ p' = afterPass p res ∧
        ∀ x ∈ res, ∀ r ∈ x.2.runners, (labelValues x.1 r).isSome = true := by
  induction orgs with
  | nil =>
    intro p p' h
    simp only [fetchOrgs] at h
    injection h with h
    exact ⟨[], rfl, h.symm, by simp⟩
  | cons o orgs ih =>
    intro p p' h
    simp only [fetchOrgs] at h
    split at h
    · exact absurd h (by simp)
    · rename_i p1 h1
      obtain ⟨f, hf, hp1, hall1⟩ := fetchOrg_ok server fuel p p1 o h1
      obtain ⟨res, hres, hp', hall⟩ := ih p1 p' h
      have hsrv : p1.srv = f.srv := by rw [hp1]; rfl
      have hnow : p1.now = f.now := by rw [hp1]; rfl
      rw [hsrv, hnow] at hres
      refine ⟨(o, f) :: res, ?_, ?_, ?_⟩
      · simp only [fetchAll, hf, hres]
      · rw [hp', hp1]; rfl
      · intro x hx
        rcases List.mem_cons.1 hx with hx | hx
        · rw [hx]; exact hall1
        · exact hall x hx

theorem fetchOrgs_total {σ : Type} (server : Server σ) (fuel : Nat) (orgs : List String) :
    ∀ (p : Poller σ) (res : List (String × Fetched σ)),
      fetchAll server fuel orgs p.srv p.now = some res →
      (∀ x ∈ res, ∀ r ∈ x.2.runners, (labelValues x.1 r).isSome = true) →
      p.gauge.labelNames.length = 5 →
      fetchOrgs server fuel orgs p = .ok (afterPass p res) := by
  induction orgs with
  | nil =>
    intro p res h _ _
    simp only [fetchAll] at h
    injection h with h
    rw [← h]
    rfl
  | cons o orgs ih =>
    intro p res h hall hg
    simp only [fetchAll] at h
    split at h
    · exact absurd h (by simp)
    · rename_i f hf
      split at h
      · exact absurd h (by simp)
      · rename_i res1 hres1
        injection h with h
        subst h
        simp only [fetchOrgs, fetchOrg_total server fuel p o f hf
          (hall (o, f) (List.mem_cons_self _ _)) hg]
        exact ih (afterFetch p o f) res1 hres1
          (fun x hx => hall x (List.mem_cons_of_mem _ hx)) hg

theorem fetchAll_orgs {σ : Type} (server : Server σ) (fuel : Nat) (orgs : List String) :
    ∀ (srv : σ) (now : Int) (res : List (String × Fetched σ)),
      fetchAll server fuel orgs srv now = some res → res.map (·.1) = orgs := by
  induction orgs with
  | nil =>
    intro srv now res h
    simp only [fetchAll] at h
    injection h with h
    rw [← h]
    rfl
  | cons o orgs ih =>
    intro srv now res h
    simp only [fetchAll] at h
    split at h
    · exact absurd h (by simp)
    · rename_i f hf
      split at h
      · exact absurd h (by simp)
      · rename_i res1 hres1
        injection h with h
        subst h
        simp only [List.map_cons, ih _ _ res1 hres1]

theorem afterPass_gauge {σ : Type} (res : List (String × Fetched σ)) :
    ∀ p : Poller σ, (afterPass p res).gauge =
      { p.gauge with series := applySets (passSets res) p.gauge.series } := by
  induction res with
  | nil => intro p; rfl
  | cons x res ih =>
    intro p
    simp only [afterPass, ih, passSets, List.flatMap_cons, applySets, List.foldl_append]
    rfl

theorem afterPass_trace {σ : Type} (res : List (String × Fetched σ)) :
    ∀ p : Poller σ, (afterPass p res).trace = p.trace ++ passEvents res := by
  induction res with
  | nil => intro p; simp [afterPass, passEvents]
  | cons x res ih =>
    intro p
    simp only [afterPass, ih, passEvents, List.flatMap_cons, afterFetch, afterSets,
      List.append_assoc, List.singleton_append, List.cons_append, List.nil_append]


theorem seriesGet_upsert (k k' : List String) (v : Int) (l : List (List String × Int)) :
    seriesGet k' (upsert k v l) = if k = k' then some v else seriesGet k' l := by
  induction l with
  | nil => simp [upsert, seriesGet]
  | cons x l ih =>
    obtain ⟨kx, vx⟩ := x
    by_cases h1 : kx = k
    · subst h1
      by_cases h2 : kx = k'
      · simp [upsert, seriesGet, h2]
      · simp [upsert, seriesGet, h2]
    · by_cases h2 : kx = k'
      · subst h2
        have h3 : ¬ k = kx := fun e => h1 e.symm
        simp [upsert, seriesGet, h1, h3]
      · simp [upsert, seriesGet, h1, h2, ih]

theorem seriesGet_applySets (k : List String) (sets : List (List String × Int)) :
    ∀ s : List (List String × Int), seriesGet k (applySets sets s) =
      match lastSet k sets with
      | some v => some v
      | none => seriesGet k s := by
  induction sets with
  | nil => intro s; rfl
  | cons kv sets ih =>
    intro s
    have hstep : applySets (kv :: sets) s = applySets sets (upsert kv.1 kv.2 s) := rfl
    rw [hstep, ih, seriesGet_upsert]
    simp only [lastSet]
    cases lastSet k sets with
    | some v => rfl
    | none =>
      by_cases hk : kv.1 = k
      · simp [hk]
      · simp [hk]

theorem mem_upsert (k : List String) (v : Int) (l : List (List String × Int))
    (x : List String × Int) (h : x ∈ upsert k v l) : x = (k, v) ∨ x ∈ l := by
  induction l with
  | nil =>
    simp only [upsert, List.mem_singleton] at h
    exact Or.inl h
  | cons y l ih =>
    obtain ⟨ky, vy⟩ := y
    simp only [upsert] at h
    split at h
    · rcases List.mem_cons.1 h with h | h
      · exact Or.inl h
      · exact Or.inr (List.mem_cons_of_mem _ h)
    · rcases List.mem_cons.1 h with h | h
      · exact Or.inr (h ▸ List.mem_cons_self _ _)
      · rcases ih h with h | h
        · exact Or.inl h
        · exact Or.inr (List.mem_cons_of_mem _ h)

theorem mem_applySets (sets : List (List String × Int)) :
    ∀ (s : List (List String × Int)) (x : List String × Int),
      x ∈ applySets sets s → x ∈ sets ∨ x ∈ s := by
  induction sets with
  | nil => intro s x h; exact Or.inr h
  | cons kv sets ih =>
    intro s x h
    have hstep : applySets (kv :: sets) s = applySets sets (upsert kv.1 kv.2 s) := rfl
    rw [hstep] at h
    rcases ih _ x h with h | h
    · exact Or.inl (List.mem_cons_of_mem _ h)
    · rcases mem_upsert _ _ _ _ h with h | h
      · exact Or.inl (h ▸ List.mem_cons_self _ _)
      · exact Or.inr h

theorem mem_setsOf (orga : String) (rs : List (Option Runner)) (x : List String × Int) :
    x ∈ setsOf orga rs ↔
      ∃ r ∈ rs, labelValues orga r = some x.1 ∧ x.2 = runnerStatusToCode r := by
  obtain ⟨k, v⟩ := x
  unfold setsOf
  rw [List.mem_filterMap]
  constructor
  · rintro ⟨r, hr, h⟩
    cases hl : labelValues orga r with
    | none => rw [hl] at h; exact absurd h (by simp)
    | some lvs =>
      rw [hl] at h
      simp only [Option.map_some', Option.some.injEq, Prod.mk.injEq] at h
      exact ⟨r, hr, by rw [hl, h.1], h.2.symm⟩
  · rintro ⟨r, hr, hl, hv⟩
    refine ⟨r, hr, ?_⟩
    simp only at hl hv
    rw [hl, hv]
    rfl

theorem mem_passSets {σ : Type} (res : List (String × Fetched σ)) (x : List String × Int) :
    x ∈ passSets res ↔ ∃ y ∈ res, x ∈ setsOf y.1 y.2.runners := by
  unfold passSets
  exact List.mem_flatMap

theorem lastSet_mem (k : List String) (sets : List (List String × Int)) (v : Int)
    (h : lastSet k sets = some v) : (k, v) ∈ sets := by
  induction sets with
  | nil => exact absurd h (by simp [lastSet])
  | cons kv sets ih =>
    simp only [lastSet] at h
    cases hl : lastSet k sets with
    | some w =>
      rw [hl] at h
      injection h with h
      subst h
      exact List.mem_cons_of_mem _ (ih hl)
    | none =>
      simp only [hl] at h
      by_cases hk : kv.1 = k
      · rw [if_pos hk] at h
        injection h with h
        have : kv = (k, v) := by rw [← hk, ← h]
        exact this ▸ List.mem_cons_self _ _
      · rw [if_neg hk] at h
        exact absurd h (by simp)

theorem lastSet_isSome (k : List String) (sets : List (List String × Int)) (v : Int)
    (h : (k, v) ∈ sets) : ∃ w, lastSet k sets = some w := by
  induction sets with
  | nil => exact absurd h (List.not_mem_nil _)
  | cons kv sets ih =>
    simp only [lastSet]
    cases hl : lastSet k sets with
    | some w => exact ⟨w, rfl⟩
    | none =>
      rcases List.mem_cons.1 h with h | h
      · refine ⟨kv.2, ?_⟩
        have hk : kv.1 = k := by rw [← h]
        simp [hk]
      · obtain ⟨w, hw⟩ := ih h
        rw [hl] at hw
        exact absurd hw (by simp)


theorem labelValues_eq_runnerTuple (orga os name : String) (rr : Runner)
    (hos : rr.OS = some os) (hname : rr.Name = some name) :
    labelValues orga (some rr) = some (runnerTuple orga os name rr) := by
  simp only [labelValues, hos, hname, runnerTuple, runnerLabelsToString, Runner.GetID]

/-- C6, as stated, fails: when the record of runner `r1` is returned twice with different
statuses (online on page 1, offline on page 2) the gauge holds `0` under the tuple of `r1`,
not the code `1` of the first record; and when a fetched record has no `os` field the pass
stops with a nil pointer dereference instead of writing the gauge. -/
theorem fetchPass_gauge_counterexample :
    (fetchPass scripted 2 ⟨["acme"], 30⟩
        (Poller.start [okCall (0, [some runnerR1], 2), okCall (0, [some runnerR1Offline], 0)]
          0)).toOption.map (fun p => (p.gauge.series, p.trace)) =
      some ([(["acme", "linux", "r1", "1", ""], 0)],
        [PollEvent.fetch "acme" [pageRequest "acme" 200 0, pageRequest "acme" 200 2]
           [some runnerR1, some runnerR1Offline],
         PollEvent.set ["acme", "linux", "r1", "1", ""] 1,
         PollEvent.set ["acme", "linux", "r1", "1", ""] 0]) ∧
    labelValues "acme" (some runnerR1) = some ["acme", "linux", "r1", "1", ""] ∧
    runnerStatusToCode (some runnerR1) = 1 ∧
    (fetchPass scripted 1 ⟨["acme"], 30⟩
        (Poller.start [okCall (0, [some runnerNoOS], 0)] 0)).toOption = none := by
  refine ⟨by decide, by decide, by decide, by decide⟩

/-- C6, amended: when every fetch of the pass returns and every fetched record has its `os`
and `name` fields, one fetch pass completes, and for each fetched runner of organization `o`
the gauge then holds, under the tuple (o, OS, name, decimal id, comma-joined label names) in
the schema order organization, os, name, id, all_labels, the status code of the last fetched
record with that tuple, hence `runnerStatusToCode` of the runner itself when no fetched
record with the same tuple has another code. For "acme" with `r1` and `r2` of the scenario
the tuple of `r1` maps to 1 and the tuple of `r2` to 0. -/
theorem fetchPass_gauge_holds_codes {σ : Type} (server : Server σ) (fuel : Nat) (cfg : Config)
    (p : Poller σ) (res : List (String × Fetched σ))
    (hfetch : fetchAll server fuel cfg.Organizations p.srv p.now = some res)
    (hpresent : ∀ x ∈ res, ∀ r ∈ x.2.runners,
      ∃ rr os name, r = some rr ∧ rr.OS = some os ∧ rr.Name = some name)
    (hschema : p.gauge.labelNames = runnersOrganizationGauge.labelNames) :
    (∃ p', fetchPass server fuel cfg p = .ok p' ∧
      ∀ x ∈ res, ∀ rr os name, some rr ∈ x.2.runners → rr.OS = some os → rr.Name = some name →
        p'.gauge.labelNames.zip (runnerTuple x.1 os name rr) =
          [("organization", x.1), ("os", os), ("name", name),
           ("id", FormatInt (rr.ID.getD 0)),
           ("all_labels", ",".intercalate (rr.Labels.map RunnerLabels.GetName))] ∧
        p'.gauge.get (runnerTuple x.1 os name rr) =
          lastSet (runnerTuple x.1 os name rr) (passSets res) ∧
        (∃ y ∈ res, ∃ r' ∈ y.2.runners,
          labelValues y.1 r' = some (runnerTuple x.1 os name rr) ∧
          p'.gauge.get (runnerTuple x.1 os name rr) = some (runnerStatusToCode r')) ∧
        ((∀ y ∈ res, ∀ r' ∈ y.2.runners,
            labelValues y.1 r' = some (runnerTuple x.1 os name rr) →
            runnerStatusToCode r' = runnerStatusToCode (some rr)) →
          p'.gauge.get (runnerTuple x.1 os name rr) = some (runnerStatusToCode (some rr)))) ∧
    (fetchPass scripted 1 ⟨["acme"], 30⟩
        (Poller.start [okCall (0, [some runnerR1, some runnerR2], 0)]
          0)).toOption.map (fun q => q.gauge.series) =
      some [(["acme", "linux", "r1", "1", ""], 1), (["acme", "linux", "r2", "2", ""], 0)] := by
  refine ⟨?_, by decide⟩
  have hsome : ∀ x ∈ res, ∀ r ∈ x.2.runners, (labelValues x.1 r).isSome = true := by
    intro x hx r hr
    obtain ⟨rr, os, name, hrr, hos, hname⟩ := hpresent x hx r hr
    rw [hrr, labelValues_eq_runnerTuple x.1 os name rr hos hname]
    rfl
  have hlen : p.gauge.labelNames.length = 5 := by rw [hschema]; rfl
  refine ⟨afterPass p res, fetchOrgs_total server fuel cfg.Organizations p res hfetch hsome hlen,
    ?_⟩
  intro x hx rr os name hrr hos hname
  have hnames : (afterPass p res).gauge.labelNames = runnersOrganizationGauge.labelNames := by
    rw [afterPass_gauge]
    exact hschema
  have hget : ∀ k, (afterPass p res).gauge.get k =
      match lastSet k (passSets res) with
      | some v => some v
      | none => seriesGet k p.gauge.series := by
    intro k
    unfold GaugeVec.get
    rw [afterPass_gauge]
    exact seriesGet_applySets k (passSets res) p.gauge.series
  have hmem : (runnerTuple x.1 os name rr, runnerStatusToCode (some rr)) ∈ passSets res := by
    rw [mem_passSets]
    refine ⟨x, hx, ?_⟩
    rw [mem_setsOf]
    exact ⟨some rr, hrr, labelValues_eq_runnerTuple x.1 os name rr hos hname, rfl⟩
  obtain ⟨w, hw⟩ := lastSet_isSome _ _ _ hmem
  have hgetw : (afterPass p res).gauge.get (runnerTuple x.1 os name rr) = some w := by
    rw [hget, hw]
  have hwmem := lastSet_mem _ _ _ hw
  rw [mem_passSets] at hwmem
  obtain ⟨y, hy, hys⟩ := hwmem
  rw [mem_setsOf] at hys
  obtain ⟨r', hr', hl', hv'⟩ := hys
  refine ⟨?_, ?_, ?_, ?_⟩
  · rw [hnames]
    rfl
  · rw [hgetw, hw]
  · exact ⟨y, hy, r', hr', hl', by rw [hgetw]; exact congrArg some hv'⟩
  · intro hsame
    rw [hgetw]
    have := hsame y hy r' hr' hl'
    simp only at hv'
    rw [hv', this]


/-- Witness of the amended C6: organization "acme" with the runners `r1` and `r2`. -/
theorem fetchPass_gauge_holds_codes_witness :
    fetchAll scripted 1 ["acme"] [okCall (0, [some runnerR1, some runnerR2], 0)] 0 =
      some [("acme", ⟨[some runnerR1, some runnerR2], [], 0, [pageRequest "acme" 200 0]⟩)] ∧
    ∃ p', fetchPass scripted 1 ⟨["acme"], 30⟩
        (Poller.start [okCall (0, [some runnerR1, some runnerR2], 0)] 0) = .ok p' ∧
      p'.gauge.get (runnerTuple "acme" "linux" "r1" runnerR1) = some 1 := by
  have hfetch : fetchAll scripted 1 (Config.mk ["acme"] 30).Organizations
      (Poller.start [okCall (0, [some runnerR1, some runnerR2], 0)] 0).srv
      (Poller.start [okCall (0, [some runnerR1, some runnerR2], 0)] 0).now =
      some [("acme", ⟨[some runnerR1, some runnerR2], [], 0, [pageRequest "acme" 200 0]⟩)] := by
    decide
  have hpresent : ∀ x ∈ [(("acme" : String), (⟨[some runnerR1, some runnerR2], [], 0,
        [pageRequest "acme" 200 0]⟩ : Fetched (List ApiCall)))],
      ∀ r ∈ x.2.runners, ∃ rr os name, r = some rr ∧ rr.OS = some os ∧ rr.Name = some name := by
    intro x hx r hr
    rw [List.mem_singleton] at hx
    subst hx
    rcases List.mem_cons.1 hr with hr | hr
    · exact ⟨runnerR1, "linux", "r1", hr, rfl, rfl⟩
    · rw [List.mem_singleton] at hr
      exact ⟨runnerR2, "linux", "r2", hr, rfl, rfl⟩
  obtain ⟨p', hp', hall⟩ := (fetchPass_gauge_holds_codes scripted 1 ⟨["acme"], 30⟩
    (Poller.start [okCall (0, [some runnerR1, some runnerR2], 0)] 0) _ hfetch hpresent rfl).1
  refine ⟨by decide, p', hp', ?_⟩
  rw [(hall _ (List.mem_singleton.2 rfl) runnerR1 "linux" "r1" (List.mem_cons_self _ _)
    rfl rfl).2.1]
  decide

/-- C9 fails on the code: a successful page that holds a runner record without the `os`
field makes the fetch pass stop with a nil pointer dereference. -/
theorem fetchPass_absent_os_panics :
    fetchPass scripted 1 ⟨["acme"], 30⟩ (Poller.start [okCall (0, [some runnerNoOS], 0)] 0) =
      .error Failure.nilDereference := by
  rfl


theorem passEvents_fetch_or_set {σ : Type} (res : List (String × Fetched σ)) :
    ∀ e ∈ passEvents res, e.isFetch = true ∨ e.isSet = true := by
  intro e he
  unfold passEvents at he
  obtain ⟨x, _, hx⟩ := List.mem_flatMap.1 he
  rcases List.mem_cons.1 hx with hx | hx
  · rw [hx]; exact Or.inl rfl
  · obtain ⟨kv, _, hkv⟩ := List.mem_map.1 hx
    rw [← hkv]; exact Or.inr rfl

theorem passEvents_mem_fetch {σ : Type} (res : List (String × Fetched σ))
    (x : String × Fetched σ) (hx : x ∈ res) :
    PollEvent.fetch x.1 x.2.trace x.2.runners ∈ passEvents res := by
  unfold passEvents
  exact List.mem_flatMap.2 ⟨x, hx, List.mem_cons_self _ _⟩

theorem passEvents_head {σ : Type} (res : List (String × Fetched σ)) (orgs : List String)
    (hres : res.map (·.1) = orgs) (o : String) (rest : List String) (ho : orgs = o :: rest) :
    ∃ api rs tail, passEvents res = PollEvent.fetch o api rs :: tail := by
  cases res with
  | nil => rw [ho] at hres; exact absurd hres (by simp)
  | cons x xs =>
    rw [ho] at hres
    simp only [List.map_cons, List.cons.injEq] at hres
    refine ⟨x.2.trace, x.2.runners,
      (setsOf x.1 x.2.runners).map (fun kv => PollEvent.set kv.1 kv.2) ++ passEvents xs, ?_⟩
    rw [← hres.1]
    simp only [passEvents, List.flatMap_cons, List.cons_append]

theorem pollerIterations_ok {σ : Type} (server : Server σ) (fuel : Nat) (cfg : Config) :
    ∀ (n : Nat) (p p' : Poller σ), pollerIterations server fuel cfg n p = .ok p' →
      ∃ passes : List (List (String × Fetched σ)),
        passes.length = n ∧
        (∀ res ∈ passes, res.map (·.1) = cfg.Organizations) ∧
        p'.trace = p.trace ++ passes.flatMap (fun res => passEvents res ++
          [PollEvent.sleep (wrapInt64 (cfg.Refresh * 1000000000)), PollEvent.reset]) ∧
        ((n = 0 ∧ p' = p) ∨
          (p'.gauge.series = [] ∧ ∃ b, p'.trace = b ++ [PollEvent.reset])) := by
  intro n
  induction n with
  | zero =>
    intro p p' h
    simp only [pollerIterations] at h
    injection h with h
    exact ⟨[], rfl, by simp, by simp [h], Or.inl ⟨rfl, h.symm⟩⟩
  | succ n ih =>
    intro p p' h
    simp only [pollerIterations] at h
    split at h
    · exact absurd h (by simp)
    · rename_i p1 h1
      obtain ⟨res, hres, hp1, _⟩ := fetchOrgs_ok server fuel cfg.Organizations p p1 h1
      obtain ⟨passes, hlen, horgs, htrace, hend⟩ := ih (sleepAndReset cfg p1) p' h
      have htr1 : (sleepAndReset cfg p1).trace = p.trace ++ (passEvents res ++
          [PollEvent.sleep (wrapInt64 (cfg.Refresh * 1000000000)), PollEvent.reset]) := by
        simp only [sleepAndReset, hp1, afterPass_trace, List.append_assoc]
      refine ⟨res :: passes, by simp [hlen], ?_, ?_, Or.inr ?_⟩
      · intro r hr
        rcases List.mem_cons.1 hr with hr | hr
        · rw [hr]; exact fetchAll_orgs server fuel _ _ _ res hres
        · exact horgs r hr
      · rw [htrace, htr1, List.flatMap_cons, List.append_assoc]
      · rcases hend with ⟨_, hp'⟩ | hend
        · rw [hp']
          refine ⟨rfl, p1.trace ++ [PollEvent.sleep (wrapInt64 (cfg.Refresh * 1000000000))], ?_⟩
          simp only [sleepAndReset, List.append_assoc, List.singleton_append]
        · exact hend

/-- C7, as stated, fails: with the one organization "acme", the trace of two iterations is
fetch, set, sleep, reset, fetch, set, sleep, reset. The reset of the first iteration comes
after that iteration's set and is followed at once by the next fetch, which therefore runs
while the gauge is empty. -/
theorem poller_reset_order_counterexample :
    (pollerIterations scripted 1 ⟨["acme"], 30⟩ 2
        (Poller.start [okCall (0, [some runnerR1], 0), okCall (0, [some runnerR1], 0)]
          0)).toOption.map (fun p => (p.trace, fetchRightAfterReset p.trace)) =
      some ([PollEvent.fetch "acme" [pageRequest "acme" 200 0] [some runnerR1],
             PollEvent.set ["acme", "linux", "r1", "1", ""] 1,
             PollEvent.sleep 30000000000,
             PollEvent.reset,
             PollEvent.fetch "acme" [pageRequest "acme" 200 0] [some runnerR1],
             PollEvent.set ["acme", "linux", "r1", "1", ""] 1,
             PollEvent.sleep 30000000000,
             PollEvent.reset], true) ∧
    (pollerIterations scripted 1 ⟨["acme"], 30⟩ 1
        (Poller.start [okCall (0, [some runnerR1], 0), okCall (0, [some runnerR1], 0)]
          0)).toOption.map (fun p => p.gauge.series) = some [] := by
  refine ⟨by decide, by decide⟩

theorem pollerIterations_split {σ : Type} (server : Server σ) (fuel : Nat) (cfg : Config)
    (a b : Nat) :
    ∀ (p p' : Poller σ), pollerIterations server fuel cfg (a + b) p = .ok p' →
      ∃ q, pollerIterations server fuel cfg a p = .ok q ∧
        pollerIterations server fuel cfg b q = .ok p' := by
  induction a with
  | zero =>
    intro p p' h
    rw [Nat.zero_add] at h
    exact ⟨p, rfl, h⟩
  | succ a ih =>
    intro p p' h
    have hab : a + 1 + b = (a + b) + 1 := by omega
    rw [hab] at h
    simp only [pollerIterations] at h
    split at h
    · exact absurd h (by simp)
    · rename_i p1 h1
      obtain ⟨q, hq, hrest⟩ := ih (sleepAndReset cfg p1) p' h
      refine ⟨q, ?_, hrest⟩
      simp only [pollerIterations, h1]
      exact hq

theorem fetchAll_cons {σ : Type} (server : Server σ) (fuel : Nat) (o : String)
    (rest : List String) (srv : σ) (now : Int) (res : List (String × Fetched σ))
    (h : fetchAll server fuel (o :: rest) srv now = some res) :
    ∃ f res1, getAllOrgRunners server fuel o srv now = some f ∧ res = (o, f) :: res1 := by
  simp only [fetchAll] at h
  split at h
  · exact absurd h (by simp)
  · rename_i f hf
    split at h
    · exact absurd h (by simp)
    · rename_i res1 _
      injection h with h
      exact ⟨f, res1, hf, h.symm⟩

theorem pollerIterations_succ_first {σ : Type} (server : Server σ) (fuel : Nat) (cfg : Config)
    (m : Nat) (q p' : Poller σ) (h : pollerIterations server fuel cfg (m + 1) q = .ok p')
    (o : String) (rest : List String) (ho : cfg.Organizations = o :: rest) :
    ∃ f tail, getAllOrgRunners server fuel o q.srv q.now = some f ∧
      p'.trace = q.trace ++ PollEvent.fetch o f.trace f.runners :: tail := by
  simp only [pollerIterations] at h
  split at h
  · exact absurd h (by simp)
  · rename_i p1 h1
    obtain ⟨res, hres, hp1, _⟩ := fetchOrgs_ok server fuel cfg.Organizations q p1 h1
    obtain ⟨passes, _, _, htrace, _⟩ := pollerIterations_ok server fuel cfg m _ p' h
    rw [ho] at hres
    obtain ⟨f, res1, hf, hcons⟩ := fetchAll_cons server fuel o rest q.srv q.now res hres
    refine ⟨f, (setsOf o f.runners).map (fun kv => PollEvent.set kv.1 kv.2) ++
      passEvents res1 ++
      [PollEvent.sleep (wrapInt64 (cfg.Refresh * 1000000000)), PollEvent.reset] ++
      passes.flatMap (fun res => passEvents res ++
        [PollEvent.sleep (wrapInt64 (cfg.Refresh * 1000000000)), PollEvent.reset]), hf, ?_⟩
    rw [htrace]
    simp only [sleepAndReset, hp1, afterPass_trace, hcons, passEvents, List.flatMap_cons,
      List.append_assoc, List.cons_append]

/-- C7, amended: in every trace of `n` completed iterations of the loop, each iteration is
its fetch pass (one fetch per configured organization in order, each followed by the sets of
its records), then one sleep, then one reset. So the reset occurs exactly once per iteration,
as its last event, after that iteration's fetches, sets and sleep. Right after each reset the
gauge is empty, and with a non-empty organization list the next event is the first fetch of
the next iteration, issued in that state: the gauge is empty while that fetch is in
flight. -/
theorem poller_trace_shape {σ : Type} (server : Server σ) (fuel : Nat) (cfg : Config)
    (n : Nat) (p p' : Poller σ) (h : pollerIterations server fuel cfg n p = .ok p') :
    ∃ passes : List (List (String × Fetched σ)),
      passes.length = n ∧
      p'.trace = p.trace ++ passes.flatMap (fun res => passEvents res ++
        [PollEvent.sleep (wrapInt64 (cfg.Refresh * 1000000000)), PollEvent.reset]) ∧
      (∀ res ∈ passes,
        res.map (·.1) = cfg.Organizations ∧
        (∀ e ∈ passEvents res, e.isFetch = true ∨ e.isSet = true) ∧
        (∀ o rest, cfg.Organizations = o :: rest →
          ∃ api rs tail, passEvents res = PollEvent.fetch o api rs :: tail)) ∧
      ∀ k, k < n →
        ∃ q, pollerIterations server fuel cfg (k + 1) p = .ok q ∧
          q.gauge.series = [] ∧
          (∃ b, q.trace = b ++ [PollEvent.reset]) ∧
          (k + 1 < n → ∀ o rest, cfg.Organizations = o :: rest →
            ∃ f tail, getAllOrgRunners server fuel o q.srv q.now = some f ∧
              p'.trace = q.trace ++ PollEvent.fetch o f.trace f.runners :: tail) := by
  obtain ⟨passes, hlen, horgs, htrace, _⟩ := pollerIterations_ok server fuel cfg n p p' h
  refine ⟨passes, hlen, htrace, ?_, ?_⟩
  · intro res hres
    exact ⟨horgs res hres, passEvents_fetch_or_set res,
      fun o rest ho => passEvents_head res cfg.Organizations (horgs res hres) o rest ho⟩
  · intro k hk
    have hn : n = (k + 1) + (n - (k + 1)) := by omega
    rw [hn] at h
    obtain ⟨q, hq, hrest⟩ := pollerIterations_split server fuel cfg (k + 1) (n - (k + 1)) p p' h
    obtain ⟨_, _, _, _, hend⟩ := pollerIterations_ok server fuel cfg (k + 1) p q hq
    have hreset : q.gauge.series = [] ∧ ∃ b, q.trace = b ++ [PollEvent.reset] := by
      rcases hend with ⟨h0, _⟩ | hend
      · exact absurd h0 (Nat.succ_ne_zero k)
      · exact hend
    refine ⟨q, hq, hreset.1, hreset.2, ?_⟩
    intro hk1 o rest ho
    have hm : n - (k + 1) = (n - (k + 1) - 1) + 1 := by omega
    rw [hm] at hrest
    exact pollerIterations_succ_first server fuel cfg _ q p' hrest o rest ho

/-- Witness of the amended C7: two iterations for the one organization "acme"; after the
first reset the gauge is empty and the next event is the fetch for "acme". -/
theorem poller_trace_shape_witness :
    ∃ p', pollerIterations scripted 1 ⟨["acme"], 30⟩ 2
        (Poller.start [okCall (0, [some runnerR1], 0), okCall (0, [some runnerR1], 0)] 0) =
        .ok p' ∧
      ∃ q, pollerIterations scripted 1 ⟨["acme"], 30⟩ 1
          (Poller.start [okCall (0, [some runnerR1], 0), okCall (0, [some runnerR1], 0)] 0) =
          .ok q ∧
        q.gauge.series = [] ∧
        (∃ b, q.trace = b ++ [PollEvent.reset]) ∧
        ∃ f tail, getAllOrgRunners scripted 1 "acme" q.srv q.now = some f ∧
          p'.trace = q.trace ++ PollEvent.fetch "acme" f.trace f.runners :: tail :=
  ⟨_, rfl, by
    obtain ⟨_, _, _, _, hk⟩ := poller_trace_shape scripted 1 ⟨["acme"], 30⟩ 2
      (Poller.start [okCall (0, [some runnerR1], 0), okCall (0, [some runnerR1], 0)] 0) _ rfl
    obtain ⟨q, hq, hempty, hreset, hnext⟩ := hk 0 (by decide)
    exact ⟨q, hq, hempty, hreset, hnext (by decide) "acme" [] rfl⟩⟩

/-- C8: whenever the poller reaches the sleep at the end of a fetch pass, after any number of
earlier iterations and whatever the server answered, that pass started from an empty gauge
(the gauge as created, or as left by the reset that ends the iteration before), the trace
since then holds only the fetches and sets of this pass, and every label tuple in the gauge
is the tuple of a record returned by a fetch of this pass, with that record's status code. -/
theorem gauge_at_sleep_from_this_pass {σ : Type} (server : Server σ) (fuel : Nat)
    (cfg : Config) (n : Nat) (srv : σ) (now : Int) (p : Poller σ)
    (h : pollerAtSleep server fuel cfg n (Poller.start srv now) = .ok p) :
    ∃ (p0 : Poller σ) (pass : List PollEvent),
      pollerIterations server fuel cfg n (Poller.start srv now) = .ok p0 ∧
      p0.gauge.series = [] ∧
      (p0.trace = [] ∨ ∃ b, p0.trace = b ++ [PollEvent.reset]) ∧
      p.trace = p0.trace ++ pass ∧
      (∀ e ∈ pass, e.isFetch = true ∨ e.isSet = true) ∧
      ∀ lvs v, (lvs, v) ∈ p.gauge.series →
        ∃ o api rs r, PollEvent.fetch o api rs ∈ pass ∧ r ∈ rs ∧
          labelValues o r = some lvs ∧ v = runnerStatusToCode r := by
  unfold pollerAtSleep at h
  split at h
  · exact absurd h (by simp)
  · rename_i p0 h0
    obtain ⟨_, _, _, _, hend⟩ := pollerIterations_ok server fuel cfg n _ p0 h0
    obtain ⟨res, _, hp, _⟩ := fetchOrgs_ok server fuel cfg.Organizations p0 p h
    have hempty : p0.gauge.series = [] := by
      rcases hend with ⟨_, hp0⟩ | ⟨he, _⟩
      · rw [hp0]; rfl
      · exact he
    refine ⟨p0, passEvents res, h0, hempty, ?_, ?_, passEvents_fetch_or_set res, ?_⟩
    · rcases hend with ⟨_, hp0⟩ | ⟨_, hb⟩
      · rw [hp0]; exact Or.inl rfl
      · exact Or.inr hb
    · rw [hp, afterPass_trace]
    · intro lvs v hmem
      rw [hp, afterPass_gauge, hempty] at hmem
      rcases mem_applySets _ _ _ hmem with hm | hm
      · obtain ⟨y, hy, hys⟩ := (mem_passSets res _).1 hm
        obtain ⟨r, hr, hl, hv⟩ := (mem_setsOf _ _ _).1 hys
        exact ⟨y.1, y.2.trace, y.2.runners, r, passEvents_mem_fetch res y hy, hr, hl, hv⟩
      · exact absurd hm (List.not_mem_nil _)

/-- Witness of C8: the sleep of the second pass for the one organization "acme"; the tuple of
`r1`, written in the first pass, is gone. -/
theorem gauge_at_sleep_from_this_pass_witness :
    ∃ p, pollerAtSleep scripted 1 ⟨["acme"], 30⟩ 1
        (Poller.start [okCall (0, [some runnerR1], 0), okCall (0, [some runnerR2], 0)] 0) =
        .ok p ∧
      p.gauge.series = [(["acme", "linux", "r2", "2", ""], 0)] ∧
      ∀ lvs v, (lvs, v) ∈ p.gauge.series →
        ∃ (p0 : Poller (List ApiCall)) (pass : List PollEvent), p.trace = p0.trace ++ pass ∧
          ∃ o api rs r, PollEvent.fetch o api rs ∈ pass ∧ r ∈ rs ∧
            labelValues o r = some lvs ∧ v = runnerStatusToCode r :=
  ⟨_, rfl, by decide, by
    obtain ⟨p0, pass, _, _, _, htr, _, hall⟩ := gauge_at_sleep_from_this_pass scripted 1
      ⟨["acme"], 30⟩ 1 [okCall (0, [some runnerR1], 0), okCall (0, [some runnerR2], 0)] 0 _ rfl
    intro lvs v hm
    exact ⟨p0, pass, htr, hall lvs v hm⟩⟩

end GithubActionsExporter
